import Mathlib

/-!
Verification of the CoinTaxman cost-basis balance engine.

This file gives a shallow embedding of the core of the repository:

* `src/balance_queue.py` — `BalancedOperation`, `BalanceQueue` with its FIFO
  and LIFO variants (`_remove`, `remove`, `add`, `_put`, `_remove_fee`,
  `remove_fee`, `sanity_check`, `remove_all`, and the three
  `MissingAcquisitionHandling` policies);
* `src/balance_management/staking_tracker.py` — `StakedCoin`,
  `StakingContract`, `StakingTracker.start_staking_contract` and
  `StakingTracker.end_staking_contract`;
* `src/balance_management/balance_config.py` and
  `src/balance_management/balance_manager.py` — `BalanceKey`,
  `BalanceConfig`, `BalanceManager.get_balance`;
* `src/taxman.py` (`Taxman._evaluate_sell` holding-period classification and
  `Taxman._get_fee_param_dict`) and
  `src/tax_rules/german_tax_rules.py` (`calculate_holding_period_taxation`).

Modelling conventions:

* Python `decimal.Decimal` values are embedded as `ℚ`.  The engine only
  adds, subtracts, negates and compares these values, and every such
  operation on decimals agrees with the corresponding operation on `ℚ`.
* Python exceptions (`assert`, `raise RuntimeError`, `raise ValueError`,
  `raise NotImplementedError`) are embedded with `Except Err`; a raising
  path returns `.error e` and produces no successor state, matching the
  fact that the Python engine aborts the run on these exceptions.
* In-place mutation of the queue / tracker is embedded as explicit state
  passing.
* `transaction.py` (the `tr` module with the `Operation` data class
  hierarchy) is not part of the provided sources; following the spec's §3
  data model, an operation is embedded as a record of platform, coin,
  change, utc time, an operation-kind tag, optional fee operations and
  remarks.  Its `utc_time` is embedded as an integer timestamp (seconds);
  the only arithmetic the queue engine performs on it is subtracting one
  second (`datetime.timedelta(seconds=1)`).  Fields not read by the
  embedded code (`line`, `file_path`, `link`, ...) are omitted.
* The calendar arithmetic of `dateutil.relativedelta(years=1)` used by the
  holding-period classifiers is embedded separately on a broken-down
  date-time record (`DateTime`), see below.
-/

namespace CoinTaxman

/-- Exceptions raised by the embedded Python code. -/
inductive Err where
  | assertionError
  | runtimeError
  | valueError
  | notImplementedError
deriving DecidableEq

instance {ε α : Type} [DecidableEq ε] [DecidableEq α] : DecidableEq (Except ε α) :=
  fun x y =>
    match x, y with
    | .error a, .error b =>
      if h : a = b then .isTrue (by rw [h])
      else .isFalse (fun hc => h (by cases hc; rfl))
    | .ok a, .ok b =>
      if h : a = b then .isTrue (by rw [h])
      else .isFalse (fun hc => h (by cases hc; rfl))
    | .error _, .ok _ => .isFalse (fun hc => Except.noConfusion hc)
    | .ok _, .error _ => .isFalse (fun hc => Except.noConfusion hc)

/-- The operation kinds of the `transaction.py` class hierarchy
(spec §3: tagged variant over Buy, Sell, Deposit, Withdrawal, Fee, ...). -/
inductive OpKind where
  | buy
  | sell
  | deposit
  | withdrawal
  | fee
  | coinLend
  | coinLendEnd
  | coinLendInterest
  | staking
  | stakingEnd
  | stakingInterest
  | airdrop
  | commission
  | gift
  | mining
  | hardFork
deriving DecidableEq

/-- A `tr.Fee` operation, as far as the embedded code reads it
(`fee.coin`, `fee.change`, and the fee object itself is handed to the
price oracle). -/
structure FeeOp where
  platform : String
  coin : String
  change : ℚ
  utc_time : ℤ
deriving DecidableEq

/-- A `tr.Operation` (spec §3), restricted to the fields the embedded code
reads.  `utc_time` is an integer timestamp in seconds. -/
structure Operation where
  platform : String
  coin : String
  change : ℚ
  utc_time : ℤ
  kind : OpKind
  fees : Option (List FeeOp) := none
  remarks : List String := []
deriving DecidableEq

/-- `tr.SoldCoin`: the originating operation of a consumed lot plus the
amount consumed from it. -/
structure SoldCoin where
  op : Operation
  sold : ℚ
deriving DecidableEq

/-- `balance_queue.BalancedOperation`: one lot = an acquisition operation
plus the amount of it already sold. -/
structure BalancedOperation where
  op : Operation
  sold : ℚ := 0
deriving DecidableEq

/-- `BalancedOperation.not_sold` (without the embedded `assert not_sold > 0`;
the places where the Python property is called model the assert
explicitly). -/
def BalancedOperation.notSold (bop : BalancedOperation) : ℚ :=
  bop.op.change - bop.sold

/-- `balance_management.balance_config.MissingAcquisitionHandling`. -/
inductive MissingAcquisitionHandling where
  | error
  | zero_cost
  | warning
deriving DecidableEq

/-- Which `BalanceQueue` subclass is in use: `BalanceFIFOQueue` pops/peeks
at the front of the deque, `BalanceLIFOQueue` at the back; both push new
lots at the back. -/
inductive Principle where
  | fifo
  | lifo
deriving DecidableEq

/-- The mutable state of a `balance_queue.BalanceQueue`. -/
structure BalanceQueue where
  coin : String
  missing_acquisition_handling : MissingAcquisitionHandling
  queue : List BalancedOperation
  buffer_fee : ℚ
deriving DecidableEq

/-- Sum of the `sold` amounts of a list of sold coins
(`sum(sc.sold for sc in sold_coins)`). -/
def sumSold (l : List SoldCoin) : ℚ :=
  (l.map SoldCoin.sold).sum

/-- Sum of the `not_sold` amounts of the lots of a queue. -/
def sumNotSold (q : List BalancedOperation) : ℚ :=
  (q.map BalancedOperation.notSold).sum

/-- The while-loop of `BalanceQueue._remove`, for a queue that is peeked
and popped at the FRONT (`BalanceFIFOQueue`).  Returns the consumed
`SoldCoin` fragments, the leftover change that could not be removed, and
the remaining queue.  The `assert not_sold > 0` inside the
`BalancedOperation.not_sold` property is modelled by the
`.error .assertionError` branch. -/
def removeFront : List BalancedOperation → ℚ →
    Except Err (List SoldCoin × ℚ × List BalancedOperation)
  | [], change => .ok ([], change, [])
  | bop :: rest, change =>
    if change ≤ 0 then .ok ([], change, bop :: rest)
    else if bop.notSold ≤ 0 then .error .assertionError
    else if change < bop.notSold then
      -- not_sold > change: partially consume the lot and stop.
      .ok ([⟨bop.op, change⟩], 0, ⟨bop.op, bop.sold + change⟩ :: rest)
    else
      -- not_sold <= change: fully consume (pop) the lot and continue.
      match removeFront rest (change - bop.notSold) with
      | .error e => .error e
      | .ok (scs, ch, q) => .ok (⟨bop.op, bop.notSold⟩ :: scs, ch, q)

/-- The while-loop of `BalanceQueue._remove`, dispatched on the queue
variant.  `BalanceLIFOQueue` peeks and pops at the back of the deque,
which is peeking and popping at the front of the reversed list. -/
def removeLoop (p : Principle) (q : List BalancedOperation) (change : ℚ) :
    Except Err (List SoldCoin × ℚ × List BalancedOperation) :=
  match p with
  | .fifo => removeFront q change
  | .lifo =>
    match removeFront q.reverse change with
    | .error e => .error e
    | .ok (scs, ch, q) => .ok (scs, ch, q.reverse)

/-- `BalanceQueue._remove`, including its final
`assert change >= 0, "Removed more than necessary from the queue."`. -/
def removeQ (p : Principle) (q : List BalancedOperation) (change : ℚ) :
    Except Err (List SoldCoin × ℚ × List BalancedOperation) :=
  match removeLoop p q change with
  | .error e => .error e
  | .ok (scs, ch, q) =>
    if ch < 0 then .error .assertionError else .ok (scs, ch, q)

/-- `BalanceQueue._remove_fee`: remove a fee amount; a leftover is added to
`buffer_fee` unless the queue's coin is the configured fiat currency
(`config.FIAT`), in which case it is only logged. -/
def removeFeeAmount (p : Principle) (fiat : String) (st : BalanceQueue)
    (fee : ℚ) : Except Err BalanceQueue :=
  match removeQ p st.queue fee with
  | .error e => .error e
  | .ok (_, left, q) =>
    if left ≠ 0 ∧ st.coin ≠ fiat then
      .ok { st with queue := q, buffer_fee := st.buffer_fee + left }
    else
      .ok { st with queue := q }

/-- `BalanceQueue._put`: push the lot at the back of the deque (both
subclasses append on `_put_`), then, if fees are buffered, clear the
buffer and retry removing them. -/
def put (p : Principle) (fiat : String) (st : BalanceQueue)
    (item : BalancedOperation) : Except Err BalanceQueue :=
  let st1 := { st with queue := st.queue ++ [item] }
  if st1.buffer_fee ≠ 0 then
    removeFeeAmount p fiat { st1 with buffer_fee := 0 } st1.buffer_fee
  else
    .ok st1

/-- `BalanceQueue.add`: `assert not isinstance(op, tr.Fee)`,
`assert op.coin == self.coin`, then `_put`. -/
def add (p : Principle) (fiat : String) (st : BalanceQueue)
    (op : Operation) : Except Err BalanceQueue :=
  if op.kind = .fee then .error .assertionError
  else if op.coin ≠ st.coin then .error .assertionError
  else put p fiat st ⟨op, 0⟩

/-- The greedy reallocation loop used twice in `BalanceQueue.remove`: walk
a list of sold coins, keeping them while they fit into the remaining
amount, truncating the first one that does not fit, and dropping the
rest.  (The same loop shape implements both the ZERO_COST
`remaining_to_allocate` adjustment and the final truncation.) -/
def allocateUpTo (remaining : ℚ) : List SoldCoin → List SoldCoin
  | [] => []
  | sc :: rest =>
    if remaining ≤ 0 then []
    else if sc.sold ≤ remaining then sc :: allocateUpTo (remaining - sc.sold) rest
    else [⟨sc.op, remaining⟩]

/-- The final validation block of `BalanceQueue.remove`: if the total sold
amount exceeds the operation amount, truncate the sold-coins list to match
the operation amount exactly (logged as an error in the source). -/
def finalTruncate (opChange : ℚ) (l : List SoldCoin) : List SoldCoin :=
  if sumSold l > opChange then allocateUpTo opChange l else l

/-- The remark string attached to synthetic zero-cost acquisitions in
`BalanceQueue.remove`. -/
def syntheticRemark : String :=
  "Synthetic €0 cost basis acquisition for German tax compliance - assumed airdrop/fork"

/-- The synthetic acquisition created by the ZERO_COST branch of
`BalanceQueue.remove`: a `tr.Buy` dated one second before the requesting
operation, on the same platform, with change equal to the shortfall and
the zero-cost-basis remark. -/
def syntheticAcquisition (op : Operation) (unsold : ℚ) : Operation :=
  { utc_time := op.utc_time - 1
    platform := op.platform
    change := unsold
    coin := op.coin
    kind := .buy
    fees := none
    remarks := [syntheticRemark] }

/-- `BalanceQueue.remove` up to (but not including) its final validation
block: `assert op.coin == self.coin`, `_remove`, the
`total_sold > op.change` RuntimeError check, and the
missing-acquisition handling of `unsold_change` (fiat warning /
ERROR / ZERO_COST / WARNING). -/
def removeCore (p : Principle) (fiat : String) (st : BalanceQueue)
    (op : Operation) : Except Err (List SoldCoin × BalanceQueue) :=
  if op.coin ≠ st.coin then .error .assertionError
  else
    match removeQ p st.queue op.change with
    | .error e => .error e
    | .ok (sold_coins, unsold, q1) =>
      let st1 := { st with queue := q1 }
      if sumSold sold_coins > op.change then .error .runtimeError
      else if unsold ≠ 0 then
        if st1.coin = fiat then
          -- Fiat-currency shortfalls are only logged as a warning.
          .ok (sold_coins, st1)
        else
          match st1.missing_acquisition_handling with
          | .error => .error .runtimeError
          | .zero_cost =>
            match add p fiat st1 (syntheticAcquisition op unsold) with
            | .error e => .error e
            | .ok st2 =>
              match removeQ p st2.queue unsold with
              | .error e => .error e
              | .ok (additional, remaining, q2) =>
                let st3 := { st2 with queue := q2 }
                let merged :=
                  if sumSold additional ≤ unsold then sold_coins ++ additional
                  else sold_coins ++ allocateUpTo unsold additional
                if remaining ≠ 0 then .error .runtimeError
                else .ok (merged, st3)
          | .warning => .ok (sold_coins, st1)
      else .ok (sold_coins, st1)

/-- `BalanceQueue.remove`: `removeCore` followed by the final validation
block which truncates the result so that the total sold amount never
exceeds the operation amount. -/
def remove (p : Principle) (fiat : String) (st : BalanceQueue)
    (op : Operation) : Except Err (List SoldCoin × BalanceQueue) :=
  match removeCore p fiat st op with
  | .error e => .error e
  | .ok (sold_coins, st1) => .ok (finalTruncate op.change sold_coins, st1)

/-- `BalanceQueue.remove_fee`: `assert fee.coin == self.coin`, then
`_remove_fee(fee.change)`. -/
def removeFee (p : Principle) (fiat : String) (st : BalanceQueue)
    (fee : FeeOp) : Except Err BalanceQueue :=
  if fee.coin ≠ st.coin then .error .assertionError
  else removeFeeAmount p fiat st fee.change

/-- `BalanceQueue.sanity_check`: raise unless the fee buffer is empty;
for the fiat-currency queue a nonzero buffer is only logged. -/
def sanityCheck (fiat : String) (st : BalanceQueue) : Except Err Unit :=
  if st.buffer_fee ≠ 0 then
    if st.coin = fiat then .ok () else .error .runtimeError
  else .ok ()

/-- The drain loop of `BalanceQueue.remove_all` for pops at the FRONT.
Each pop reads `bop.not_sold`, whose assert is modelled as before. -/
def removeAllFront : List BalancedOperation → Except Err (List SoldCoin)
  | [] => .ok []
  | bop :: rest =>
    if bop.notSold ≤ 0 then .error .assertionError
    else
      match removeAllFront rest with
      | .error e => .error e
      | .ok scs => .ok (⟨bop.op, bop.notSold⟩ :: scs)

/-- `BalanceQueue.remove_all`: drain every remaining lot in pop order. -/
def removeAll (p : Principle) (st : BalanceQueue) :
    Except Err (List SoldCoin × BalanceQueue) :=
  match (match p with
         | .fifo => removeAllFront st.queue
         | .lifo => removeAllFront st.queue.reverse) with
  | .error e => .error e
  | .ok scs => .ok (scs, { st with queue := [] })

/-! ### Staking tracker (`balance_management/staking_tracker.py`)

The tracker's `_active_contracts` dictionary maps a platform and a coin to
a list of contracts; `start_staking_contract` and `end_staking_contract`
read and write only the bucket `_active_contracts[op.platform][op.coin]`
(plus the contract counter), so they are embedded as functions on that
bucket list.  The `_staked_amounts_cache` only memoizes
`get_staked_amount` and is behaviorally invisible to the two embedded
operations. -/

/-- `staking_tracker.StakedCoin`.  The `__post_init__` positivity check
cannot fire in `start_staking_contract` (coins are only created under an
`amount_to_stake > 0` guard), and is not modelled. -/
structure StakedCoin where
  operation : Operation
  amount : ℚ
  coin : String
  platform : String
  start_time : ℤ
  stake_type : String
deriving DecidableEq

/-- `staking_tracker.StakingContract`. -/
structure StakingContract where
  contract_id : String
  coin : String
  platform : String
  total_amount : ℚ
  start_operation : Operation
  staked_coins : List StakedCoin
  is_active : Bool := true
deriving DecidableEq

/-- `StakingContract.get_total_staked`. -/
def totalStaked (c : StakingContract) : ℚ :=
  (c.staked_coins.map StakedCoin.amount).sum

/-- `StakingTracker._generate_contract_id` (with the already incremented
counter). -/
def mkContractId (op : Operation) (counter : ℕ) : String :=
  op.platform ++ "_" ++ op.coin ++ "_" ++ toString op.utc_time ++ "_" ++ toString counter

/-- The FIFO allocation loop of `StakingTracker.start_staking_contract`:
walk the available coins, skipping other coins, taking
`min(remaining_to_stake, sold_coin.sold)` from each while the amount to
take is positive.  Returns the created staked coins and the amount that
could not be allocated. -/
def allocateStake (coin platform : String) (t : ℤ) (stype : String) :
    ℚ → List SoldCoin → List StakedCoin × ℚ
  | remaining, [] => ([], remaining)
  | remaining, sc :: rest =>
    if remaining ≤ 0 then ([], remaining)
    else if sc.op.coin ≠ coin then allocateStake coin platform t stype remaining rest
    else if 0 < min remaining sc.sold then
      (⟨sc.op, min remaining sc.sold, coin, platform, t, stype⟩ ::
        (allocateStake coin platform t stype (remaining - min remaining sc.sold) rest).1,
       (allocateStake coin platform t stype (remaining - min remaining sc.sold) rest).2)
    else allocateStake coin platform t stype remaining rest

/-- `StakingTracker.start_staking_contract`, acting on the contract bucket
for (platform, coin) of the start operation and the contract counter.
The `contract.add_staked_coin` coin/platform check cannot fire (every
staked coin is built with the contract's coin and platform) and is not
modelled. -/
def startStakingContract (counter : ℕ) (contracts : List StakingContract)
    (start_op : Operation) (available : List SoldCoin) :
    Except Err (String × ℕ × List StakingContract) :=
  if ¬(start_op.kind = .coinLend ∨ start_op.kind = .staking) then
    .error .valueError
  else
    let counter1 := counter + 1
    let cid := mkContractId start_op counter1
    let stype := if start_op.kind = .coinLend then "lending" else "staking"
    let alloc := allocateStake start_op.coin start_op.platform
      start_op.utc_time stype |start_op.change| available
    if 0 < alloc.2 then .error .valueError
    else
      .ok (cid, counter1, contracts ++
        [{ contract_id := cid
           coin := start_op.coin
           platform := start_op.platform
           total_amount := |start_op.change|
           start_operation := start_op
           staked_coins := alloc.1
           is_active := true }])

/-- The `min(platform_contracts, key=lambda c: c.start_operation.utc_time)`
selection: Python's `min` keeps the FIRST element with minimal key,
replacing the running minimum only on a strictly smaller key. -/
def argminStart : List StakingContract → Option StakingContract
  | [] => none
  | c :: rest =>
    some (rest.foldl
      (fun best x =>
        if x.start_operation.utc_time < best.start_operation.utc_time then x
        else best) c)

/-- The `if contract_id:` selection of `end_staking_contract`: a given,
truthy (non-empty) id selects the first contract with that id, otherwise
the oldest active contract by start time is selected. -/
def selectContract (contracts : List StakingContract) (cid : Option String) :
    Option StakingContract :=
  match cid with
  | some s =>
    if s ≠ "" then contracts.find? (fun c => c.contract_id = s)
    else argminStart contracts
  | none => argminStart contracts

/-- The `1e-8` decimal tolerance of `end_staking_contract`. -/
def stakingTol : ℚ := 1 / 100000000

/-- `StakingTracker.end_staking_contract`, acting on the contract bucket
for (platform, coin) of the end operation.  On the selected contract the
source sets `is_active = False`, copies its staked coins and removes the
contract from the bucket (`list.remove`, which deletes the first equal
element — the selected one, since contract ids are unique); raising paths
leave the bucket untouched. -/
def endStakingContract (contracts : List StakingContract)
    (end_op : Operation) (cid : Option String) :
    Except Err (List StakedCoin × List StakingContract) :=
  if ¬(end_op.kind = .coinLendEnd ∨ end_op.kind = .stakingEnd) then
    .error .valueError
  else if contracts = [] then .error .valueError
  else
    match selectContract contracts cid with
    | none => .error .valueError
    | some c =>
      if stakingTol < |(|end_op.change| - totalStaked c)| then .error .valueError
      else .ok (c.staked_coins, contracts.erase c)

/-! ### Balance manager (`balance_management/balance_config.py`,
`balance_management/balance_manager.py`) -/

/-- `balance_config.DepotMode`. -/
inductive DepotMode where
  | single
  | multi
deriving DecidableEq

/-- `balance_config.BalanceKey`. -/
structure BalanceKey where
  platform : Option String
  coin : String
deriving DecidableEq

/-- `BalanceKey.create`. -/
def BalanceKey.create (platform coin : String) (mode : DepotMode) : BalanceKey :=
  { platform := if mode = .multi then some platform else none
    coin := coin.toUpper }

/-- `balance_config.BalanceConfig` (`BalancingPrinciple` is identified with
the queue-variant tag `Principle`; the manager maps FIFO to
`BalanceFIFOQueue` and LIFO to `BalanceLIFOQueue`). -/
structure BalanceConfig where
  principle : Principle
  depot_mode : DepotMode
  fiat_currency : String
  missing_acquisition_handling : MissingAcquisitionHandling
deriving DecidableEq

/-- The `_balances` dictionary of a `BalanceManager`, as an association
list. -/
def lookupKey (balances : List (BalanceKey × BalanceQueue)) (k : BalanceKey) :
    Option BalanceQueue :=
  (balances.find? (fun kv => kv.1 = k)).map Prod.snd

/-- `BalanceManager.get_balance`: look the key up and, when absent, create
the queue with `self._BalanceType(coin)`.  Only `coin` is passed to the
constructor, so the new queue takes `BalanceQueue.__init__`'s default
`missing_acquisition_handling = MissingAcquisitionHandling.ERROR`
regardless of the manager's `BalanceConfig`.  Returns the queue and the
updated `_balances`. -/
def getBalance (cfg : BalanceConfig) (balances : List (BalanceKey × BalanceQueue))
    (platform coin : String) : BalanceQueue × List (BalanceKey × BalanceQueue) :=
  let key := BalanceKey.create platform coin cfg.depot_mode
  match lookupKey balances key with
  | some q => (q, balances)
  | none =>
    let q : BalanceQueue :=
      { coin := coin
        missing_acquisition_handling := .error
        queue := []
        buffer_fee := 0 }
    (q, balances ++ [(key, q)])

/-! ### Holding-period classification (`taxman.py`,
`tax_rules/german_tax_rules.py`)

`dateutil.relativedelta(years=1)` performs calendar arithmetic, so the two
classifiers are embedded over a broken-down date-time record.  Comparisons
of `datetime` values are chronological; on the record they are embedded
through the order-preserving injection `DateTime.key`. -/

/-- A broken-down timezone-aware `datetime.datetime`. -/
structure DateTime where
  year : ℕ
  month : ℕ
  day : ℕ
  hour : ℕ
  minute : ℕ
  second : ℕ
deriving DecidableEq

/-- Gregorian leap-year rule (as implemented by `calendar.isleap`, which
`dateutil` relies on). -/
def isLeapYear (y : ℕ) : Bool :=
  y % 4 = 0 ∧ (y % 100 ≠ 0 ∨ y % 400 = 0)

/-- Number of days of a month. -/
def daysInMonth (y m : ℕ) : ℕ :=
  if m = 2 then (if isLeapYear y then 29 else 28)
  else if m = 4 ∨ m = 6 ∨ m = 9 ∨ m = 11 then 30
  else 31

/-- `d + relativedelta(years=n)`: add `n` to the year and clamp the day to
the target month's length (this only matters for Feb 29 → Feb 28). -/
def addYears (d : DateTime) (n : ℕ) : DateTime :=
  { d with
    year := d.year + n
    day := min d.day (daysInMonth (d.year + n) d.month) }

/-- Order-preserving injection of valid date-times into `ℕ`
(the radices strictly bound the respective field ranges), embedding
chronological comparison of `datetime` values. -/
def DateTime.key (d : DateTime) : ℕ :=
  ((((d.year * 13 + d.month) * 32 + d.day) * 24 + d.hour) * 60 + d.minute) * 60
    + d.second

/-- The holding-period classification of `Taxman._evaluate_sell`
(`taxman.py` line 485):
`is_taxable = sc.op.utc_time + relativedelta(years=1) >= op.utc_time`,
with `buyTime = sc.op.utc_time` (the originating lot's acquisition time)
and `sellTime = op.utc_time`. -/
def isTaxableTaxman (buyTime sellTime : DateTime) : Bool :=
  decide (sellTime.key ≤ (addYears buyTime 1).key)

/-- `GermanTaxRules.calculate_holding_period_taxation`
(`german_tax_rules.py` line 129):
`return buy_date + relativedelta(years=1) > sell_date`. -/
def calculateHoldingPeriodTaxation (buy_date sell_date : DateTime) : Bool :=
  decide (sell_date.key < (addYears buy_date 1).key)

/-! ### Sell-evaluation fee split (`Taxman._get_fee_param_dict`) -/

/-- The dictionary returned by `Taxman._get_fee_param_dict`. -/
structure FeeParams where
  first_fee_amount : ℚ
  first_fee_coin : String
  first_fee_in_fiat : ℚ
  second_fee_amount : ℚ
  second_fee_coin : String
  second_fee_in_fiat : ℚ
deriving DecidableEq

/-- The all-zero initialisation of the fee parameters. -/
def zeroFeeParams : FeeParams :=
  { first_fee_amount := 0
    first_fee_coin := ""
    first_fee_in_fiat := 0
    second_fee_amount := 0
    second_fee_coin := ""
    second_fee_in_fiat := 0 }

/-- `Taxman._evaluate_fee`: the fee amount scaled by the sold share, the
fee coin, and the fiat value from the price oracle
(`self.price_data.get_partial_cost(fee, percent)`), which is abstracted
as a function argument. -/
def evaluateFee (oracle : FeeOp → ℚ → ℚ) (fee : FeeOp) (percent : ℚ) :
    ℚ × String × ℚ :=
  (fee.change * percent, fee.coin, oracle fee percent)

/-- A placeholder fee used only under guards that ensure it is never
read (`op.fees[0]` / `op.fees[1]` are only indexed after a length
check). -/
def dummyFee : FeeOp :=
  { platform := "", coin := "", change := 0, utc_time := 0 }

/-- `Taxman._get_fee_param_dict`, with its exact `if`/`elif` chain:
`op.fees is None or len(op.fees) == 0` → zeros;
`elif len(op.fees) >= 1` → evaluate `op.fees[0]` into the first-fee
fields; `elif len(op.fees) >= 2` → evaluate `op.fees[1]` into the
second-fee fields; `else` → `raise NotImplementedError`. -/
def getFeeParamDict (oracle : FeeOp → ℚ → ℚ) (fees : Option (List FeeOp))
    (percent : ℚ) : Except Err FeeParams :=
  let l := fees.getD []
  if fees.isNone ∨ l.length = 0 then .ok zeroFeeParams
  else if 1 ≤ l.length then
    let e := evaluateFee oracle (l.headD dummyFee) percent
    .ok { zeroFeeParams with
          first_fee_amount := e.1
          first_fee_coin := e.2.1
          first_fee_in_fiat := e.2.2 }
  else if 2 ≤ l.length then
    let e := evaluateFee oracle (l.getD 1 dummyFee) percent
    .ok { zeroFeeParams with
          second_fee_amount := e.1
          second_fee_coin := e.2.1
          second_fee_in_fiat := e.2.2 }
  else .error .notImplementedError

/-! ### Queue lemmas -/

/-- The resident-lot invariant of spec §3: `0 ≤ sold < op.change`,
equivalently `0 < not_sold ≤ op.change`, for every lot in the queue. -/
def ValidQueue (q : List BalancedOperation) : Prop :=
  ∀ b ∈ q, 0 ≤ b.sold ∧ b.sold < b.op.change

instance (q : List BalancedOperation) : Decidable (ValidQueue q) :=
  inferInstanceAs (Decidable (∀ b ∈ q, 0 ≤ b.sold ∧ b.sold < b.op.change))

theorem validQueue_reverse {q : List BalancedOperation} :
    ValidQueue q.reverse ↔ ValidQueue q := by
  simp [ValidQueue]

theorem sumNotSold_reverse (q : List BalancedOperation) :
    sumNotSold q.reverse = sumNotSold q := by
  simp [sumNotSold, List.sum_reverse]

theorem removeFront_of_neg {q : List BalancedOperation} {change : ℚ}
    (h : change < 0) : removeFront q change = .ok ([], change, q) := by
  cases q with
  | nil => simp [removeFront]
  | cons b rest => simp [removeFront, le_of_lt h]

theorem removeFront_sumSold {q : List BalancedOperation} {change : ℚ}
    {scs : List SoldCoin} {un : ℚ} {q1 : List BalancedOperation}
    (h : removeFront q change = .ok (scs, un, q1)) :
    sumSold scs + un = change := by
  induction q generalizing change scs un q1 with
  | nil =>
    simp only [removeFront, Except.ok.injEq, Prod.mk.injEq] at h
    obtain ⟨h1, h2, h3⟩ := h
    subst h1; subst h2
    simp [sumSold]
  | cons b rest ih =>
    rw [removeFront] at h
    split_ifs at h with h1 h2 h3
    · simp only [Except.ok.injEq, Prod.mk.injEq] at h
      obtain ⟨ha, hb, hc⟩ := h
      subst ha; subst hb
      simp [sumSold]
    · simp only [Except.ok.injEq, Prod.mk.injEq] at h
      obtain ⟨ha, hb, hc⟩ := h
      subst ha; subst hb
      simp [sumSold]
    · cases hrec : removeFront rest (change - b.notSold) with
      | error e => rw [hrec] at h; exact absurd h (by simp)
      | ok v =>
        obtain ⟨scs2, un2, q2⟩ := v
        rw [hrec] at h
        simp only [Except.ok.injEq, Prod.mk.injEq] at h
        obtain ⟨ha, hb, hc⟩ := h
        subst ha; subst hb
        have := ih hrec
        simp only [sumSold, List.map_cons, List.sum_cons] at this ⊢
        linarith

theorem removeFront_conserve {q : List BalancedOperation} {change : ℚ}
    {scs : List SoldCoin} {un : ℚ} {q1 : List BalancedOperation}
    (h : removeFront q change = .ok (scs, un, q1)) :
    sumSold scs + sumNotSold q1 = sumNotSold q := by
  induction q generalizing change scs un q1 with
  | nil =>
    simp only [removeFront, Except.ok.injEq, Prod.mk.injEq] at h
    obtain ⟨h1, h2, h3⟩ := h
    subst h1; subst h3
    simp [sumSold]
  | cons b rest ih =>
    rw [removeFront] at h
    split_ifs at h with h1 h2 h3
    · simp only [Except.ok.injEq, Prod.mk.injEq] at h
      obtain ⟨ha, hb, hc⟩ := h
      subst ha; subst hc
      simp [sumSold]
    · simp only [Except.ok.injEq, Prod.mk.injEq] at h
      obtain ⟨ha, hb, hc⟩ := h
      subst ha; subst hc
      simp only [sumSold, sumNotSold, List.map_cons, List.sum_cons,
        List.map_nil, List.sum_nil, BalancedOperation.notSold]
      ring
    · cases hrec : removeFront rest (change - b.notSold) with
      | error e => rw [hrec] at h; exact absurd h (by simp)
      | ok v =>
        obtain ⟨scs2, un2, q2⟩ := v
        rw [hrec] at h
        simp only [Except.ok.injEq, Prod.mk.injEq] at h
        obtain ⟨ha, hb, hc⟩ := h
        subst ha; subst hc
        have := ih hrec
        simp only [sumSold, sumNotSold, List.map_cons, List.sum_cons] at this ⊢
        linarith

theorem removeFront_valid {q : List BalancedOperation} {change : ℚ}
    {scs : List SoldCoin} {un : ℚ} {q1 : List BalancedOperation}
    (hv : ValidQueue q) (h : removeFront q change = .ok (scs, un, q1)) :
    ValidQueue q1 := by
  induction q generalizing change scs un q1 with
  | nil =>
    simp only [removeFront, Except.ok.injEq, Prod.mk.injEq] at h
    obtain ⟨h1, h2, h3⟩ := h
    subst h3
    exact hv
  | cons b rest ih =>
    rw [removeFront] at h
    split_ifs at h with h1 h2 h3
    · simp only [Except.ok.injEq, Prod.mk.injEq] at h
      obtain ⟨ha, hb, hc⟩ := h
      subst hc
      exact hv
    · simp only [Except.ok.injEq, Prod.mk.injEq] at h
      obtain ⟨ha, hb, hc⟩ := h
      subst hc
      intro x hx
      rcases List.mem_cons.mp hx with hx | hx
      · subst hx
        have hb0 := hv b (List.mem_cons_self b rest)
        have hchpos : (0:ℚ) < change := lt_of_not_le h1
        simp only [BalancedOperation.notSold] at h3
        exact ⟨by simp only; linarith [hb0.1], by simp only; linarith⟩
      · exact hv x (List.mem_cons_of_mem b hx)
    · cases hrec : removeFront rest (change - b.notSold) with
      | error e => rw [hrec] at h; exact absurd h (by simp)
      | ok v =>
        obtain ⟨scs2, un2, q2⟩ := v
        rw [hrec] at h
        simp only [Except.ok.injEq, Prod.mk.injEq] at h
        obtain ⟨ha, hb, hc⟩ := h
        subst hc
        exact ih (fun x hx => hv x (List.mem_cons_of_mem b hx)) hrec

theorem removeFront_unsold_nonneg {q : List BalancedOperation} {change : ℚ}
    {scs : List SoldCoin} {un : ℚ} {q1 : List BalancedOperation}
    (hch : 0 ≤ change) (h : removeFront q change = .ok (scs, un, q1)) :
    0 ≤ un := by
  induction q generalizing change scs un q1 with
  | nil =>
    simp only [removeFront, Except.ok.injEq, Prod.mk.injEq] at h
    obtain ⟨h1, h2, h3⟩ := h
    subst h2
    exact hch
  | cons b rest ih =>
    rw [removeFront] at h
    split_ifs at h with h1 h2 h3
    · simp only [Except.ok.injEq, Prod.mk.injEq] at h
      obtain ⟨ha, hb, hc⟩ := h
      subst hb
      exact hch
    · simp only [Except.ok.injEq, Prod.mk.injEq] at h
      obtain ⟨ha, hb, hc⟩ := h
      subst hb
      exact le_refl 0
    · cases hrec : removeFront rest (change - b.notSold) with
      | error e => rw [hrec] at h; exact absurd h (by simp)
      | ok v =>
        obtain ⟨scs2, un2, q2⟩ := v
        rw [hrec] at h
        simp only [Except.ok.injEq, Prod.mk.injEq] at h
        obtain ⟨ha, hb, hc⟩ := h
        subst hb
        exact ih (by linarith [not_lt.mp h3]) hrec

theorem removeFront_isOk {q : List BalancedOperation} {change : ℚ}
    (hv : ValidQueue q) (hch : 0 ≤ change) :
    ∃ scs un q1, removeFront q change = .ok (scs, un, q1) := by
  induction q generalizing change with
  | nil => exact ⟨[], change, [], rfl⟩
  | cons b rest ih =>
    rw [removeFront]
    split_ifs with h1 h2 h3
    · exact ⟨[], change, b :: rest, rfl⟩
    · exfalso
      have hb0 := hv b (List.mem_cons_self b rest)
      simp only [BalancedOperation.notSold] at h2
      linarith [hb0.2]
    · exact ⟨_, _, _, rfl⟩
    · obtain ⟨scs2, un2, q2, hrec⟩ :=
        ih (fun x hx => hv x (List.mem_cons_of_mem b hx))
          (show (0 : ℚ) ≤ change - b.notSold by linarith [not_lt.mp h3])
      rw [hrec]
      exact ⟨_, _, _, rfl⟩

theorem removeLoop_ok_elim {p : Principle} {q : List BalancedOperation}
    {change : ℚ} {scs : List SoldCoin} {un : ℚ} {q1 : List BalancedOperation}
    (h : removeLoop p q change = .ok (scs, un, q1)) :
    ∃ qq qq1, removeFront qq change = .ok (scs, un, qq1) ∧
      sumNotSold qq = sumNotSold q ∧ sumNotSold qq1 = sumNotSold q1 ∧
      (ValidQueue q → ValidQueue qq) ∧ (ValidQueue qq1 → ValidQueue q1) := by
  cases p with
  | fifo =>
    exact ⟨q, q1, h, rfl, rfl, fun hv => hv, fun hv => hv⟩
  | lifo =>
    simp only [removeLoop] at h
    cases hrec : removeFront q.reverse change with
    | error e => rw [hrec] at h; exact absurd h (by simp)
    | ok v =>
      obtain ⟨scs2, un2, q2⟩ := v
      rw [hrec] at h
      simp only [Except.ok.injEq, Prod.mk.injEq] at h
      obtain ⟨ha, hb, hc⟩ := h
      subst ha; subst hb; subst hc
      refine ⟨q.reverse, q2, hrec, sumNotSold_reverse q, ?_, ?_, ?_⟩
      · rw [sumNotSold_reverse]
      · exact fun hv => validQueue_reverse.mpr hv
      · intro hv x hx
        exact hv x (List.mem_reverse.mp hx)

theorem removeQ_ok_elim {p : Principle} {q : List BalancedOperation}
    {change : ℚ} {scs : List SoldCoin} {un : ℚ} {q1 : List BalancedOperation}
    (h : removeQ p q change = .ok (scs, un, q1)) :
    removeLoop p q change = .ok (scs, un, q1) ∧ 0 ≤ un := by
  simp only [removeQ] at h
  cases hrec : removeLoop p q change with
  | error e => rw [hrec] at h; exact absurd h (by simp)
  | ok v =>
    obtain ⟨scs2, un2, q2⟩ := v
    rw [hrec] at h
    dsimp only at h
    split_ifs at h with h1
    simp only [Except.ok.injEq, Prod.mk.injEq] at h
    obtain ⟨ha, hb, hc⟩ := h
    subst ha; subst hb; subst hc
    exact ⟨rfl, not_lt.mp h1⟩

theorem removeQ_sumSold {p : Principle} {q : List BalancedOperation}
    {change : ℚ} {scs : List SoldCoin} {un : ℚ} {q1 : List BalancedOperation}
    (h : removeQ p q change = .ok (scs, un, q1)) :
    sumSold scs + un = change := by
  obtain ⟨hl, _⟩ := removeQ_ok_elim h
  obtain ⟨qq, qq1, hf, _, _, _, _⟩ := removeLoop_ok_elim hl
  exact removeFront_sumSold hf

theorem removeQ_conserve {p : Principle} {q : List BalancedOperation}
    {change : ℚ} {scs : List SoldCoin} {un : ℚ} {q1 : List BalancedOperation}
    (h : removeQ p q change = .ok (scs, un, q1)) :
    sumSold scs + sumNotSold q1 = sumNotSold q := by
  obtain ⟨hl, _⟩ := removeQ_ok_elim h
  obtain ⟨qq, qq1, hf, hq, hq1, _, _⟩ := removeLoop_ok_elim hl
  rw [← hq, ← hq1]
  exact removeFront_conserve hf

theorem removeQ_valid {p : Principle} {q : List BalancedOperation}
    {change : ℚ} {scs : List SoldCoin} {un : ℚ} {q1 : List BalancedOperation}
    (hv : ValidQueue q) (h : removeQ p q change = .ok (scs, un, q1)) :
    ValidQueue q1 := by
  obtain ⟨hl, _⟩ := removeQ_ok_elim h
  obtain ⟨qq, qq1, hf, _, _, hvq, hvq1⟩ := removeLoop_ok_elim hl
  exact hvq1 (removeFront_valid (hvq hv) hf)

theorem removeQ_unsold_nonneg {p : Principle} {q : List BalancedOperation}
    {change : ℚ} {scs : List SoldCoin} {un : ℚ} {q1 : List BalancedOperation}
    (h : removeQ p q change = .ok (scs, un, q1)) : 0 ≤ un :=
  (removeQ_ok_elim h).2

theorem removeQ_change_nonneg {p : Principle} {q : List BalancedOperation}
    {change : ℚ} {scs : List SoldCoin} {un : ℚ} {q1 : List BalancedOperation}
    (h : removeQ p q change = .ok (scs, un, q1)) : 0 ≤ change := by
  by_contra hneg
  push_neg at hneg
  have hloop : removeLoop p q change = .ok ([], change, q) := by
    cases p with
    | fifo => exact removeFront_of_neg hneg
    | lifo =>
      simp only [removeLoop]
      rw [removeFront_of_neg hneg]
      simp
  simp only [removeQ, hloop] at h
  rw [if_pos hneg] at h
  exact absurd h (by simp)

theorem removeQ_isOk {p : Principle} {q : List BalancedOperation}
    {change : ℚ} (hv : ValidQueue q) (hch : 0 ≤ change) :
    ∃ scs un q1, removeQ p q change = .ok (scs, un, q1) := by
  cases p with
  | fifo =>
    obtain ⟨scs, un, q1, hf⟩ := removeFront_isOk hv hch
    refine ⟨scs, un, q1, ?_⟩
    simp only [removeQ, removeLoop, hf]
    rw [if_neg (not_lt.mpr (removeFront_unsold_nonneg hch hf))]
  | lifo =>
    obtain ⟨scs, un, q1, hf⟩ := removeFront_isOk (validQueue_reverse.mpr hv) hch
    refine ⟨scs, un, q1.reverse, ?_⟩
    simp only [removeQ, removeLoop, hf]
    rw [if_neg (not_lt.mpr (removeFront_unsold_nonneg hch hf))]

/-! ### State-level queue lemmas -/

theorem removeFeeAmount_valid {p : Principle} {fiat : String}
    {st : BalanceQueue} {fee : ℚ} {st1 : BalanceQueue}
    (hv : ValidQueue st.queue)
    (h : removeFeeAmount p fiat st fee = .ok st1) :
    ValidQueue st1.queue := by
  simp only [removeFeeAmount] at h
  cases hrec : removeQ p st.queue fee with
  | error e => rw [hrec] at h; exact absurd h (by simp)
  | ok v =>
    obtain ⟨scs2, un2, q2⟩ := v
    rw [hrec] at h
    dsimp only at h
    have hq2 := removeQ_valid hv hrec
    split_ifs at h with h1
    · cases h; exact hq2
    · cases h; exact hq2

theorem put_valid {p : Principle} {fiat : String} {st : BalanceQueue}
    {item : BalancedOperation} {st1 : BalanceQueue}
    (hv : ValidQueue st.queue) (hitem : 0 ≤ item.sold ∧ item.sold < item.op.change)
    (h : put p fiat st item = .ok st1) :
    ValidQueue st1.queue := by
  have happ : ValidQueue (st.queue ++ [item]) := by
    intro x hx
    rcases List.mem_append.mp hx with hx | hx
    · exact hv x hx
    · rcases List.mem_singleton.mp hx with rfl
      exact hitem
  simp only [put] at h
  split_ifs at h with h1
  · exact removeFeeAmount_valid happ h
  · cases h; exact happ

theorem add_valid {p : Principle} {fiat : String} {st : BalanceQueue}
    {op : Operation} {st1 : BalanceQueue}
    (hv : ValidQueue st.queue) (hop : 0 < op.change)
    (h : add p fiat st op = .ok st1) :
    ValidQueue st1.queue := by
  simp only [add] at h
  split_ifs at h with h1 h2
  exact put_valid hv ⟨le_refl 0, hop⟩ h

theorem removeFee_valid {p : Principle} {fiat : String} {st : BalanceQueue}
    {fee : FeeOp} {st1 : BalanceQueue}
    (hv : ValidQueue st.queue)
    (h : removeFee p fiat st fee = .ok st1) :
    ValidQueue st1.queue := by
  simp only [removeFee] at h
  split_ifs at h with h1
  exact removeFeeAmount_valid hv h

theorem allocateUpTo_sum_le {r : ℚ} (l : List SoldCoin) (hr : 0 ≤ r) :
    sumSold (allocateUpTo r l) ≤ r := by
  induction l generalizing r with
  | nil => simpa [allocateUpTo, sumSold] using hr
  | cons sc rest ih =>
    rw [allocateUpTo]
    split_ifs with h1 h2
    · simpa [sumSold] using hr
    · have := ih (r := r - sc.sold) (by linarith)
      simp only [sumSold, List.map_cons, List.sum_cons] at this ⊢
      linarith
    · simp [sumSold]

theorem finalTruncate_sum_le {c : ℚ} (l : List SoldCoin) (hc : 0 ≤ c) :
    sumSold (finalTruncate c l) ≤ c := by
  rw [finalTruncate]
  split_ifs with h1
  · exact allocateUpTo_sum_le l hc
  · exact not_lt.mp h1

theorem removeCore_ok_elim {p : Principle} {fiat : String} {st : BalanceQueue}
    {op : Operation} {scs : List SoldCoin} {st1 : BalanceQueue}
    (h : removeCore p fiat st op = .ok (scs, st1)) :
    0 ≤ op.change ∧ op.coin = st.coin := by
  simp only [removeCore] at h
  by_cases h1 : op.coin ≠ st.coin
  · rw [if_pos h1] at h; exact absurd h (by simp)
  · rw [if_neg h1] at h
    cases hrec : removeQ p st.queue op.change with
    | error e => rw [hrec] at h; exact absurd h (by simp)
    | ok v =>
      obtain ⟨sold_coins, unsold, q1⟩ := v
      exact ⟨removeQ_change_nonneg hrec, not_ne_iff.mp h1⟩

theorem removeCore_valid {p : Principle} {fiat : String} {st : BalanceQueue}
    {op : Operation} {scs : List SoldCoin} {st1 : BalanceQueue}
    (hv : ValidQueue st.queue)
    (h : removeCore p fiat st op = .ok (scs, st1)) :
    ValidQueue st1.queue := by
  simp only [removeCore] at h
  by_cases h1 : op.coin ≠ st.coin
  · rw [if_pos h1] at h; exact absurd h (by simp)
  · rw [if_neg h1] at h
    cases hrec : removeQ p st.queue op.change with
    | error e => rw [hrec] at h; exact absurd h (by simp)
    | ok v =>
      obtain ⟨sold_coins, unsold, q1⟩ := v
      rw [hrec] at h
      dsimp only at h
      have hq1 : ValidQueue q1 := removeQ_valid hv hrec
      have hun : 0 ≤ unsold := removeQ_unsold_nonneg hrec
      by_cases h2 : sumSold sold_coins > op.change
      · rw [if_pos h2] at h; exact absurd h (by simp)
      · rw [if_neg h2] at h
        by_cases h3 : unsold ≠ 0
        · rw [if_pos h3] at h
          by_cases h4 : st.coin = fiat
          · rw [if_pos h4] at h
            simp only [Except.ok.injEq, Prod.mk.injEq] at h
            obtain ⟨ha, hb⟩ := h
            subst hb
            exact hq1
          · rw [if_neg h4] at h
            cases hmode : st.missing_acquisition_handling with
            | error => rw [hmode] at h; exact absurd h (by simp)
            | zero_cost =>
              rw [hmode] at h
              cases hadd : add p fiat
                  { coin := st.coin
                    missing_acquisition_handling := MissingAcquisitionHandling.zero_cost
                    queue := q1
                    buffer_fee := st.buffer_fee }
                  (syntheticAcquisition op unsold) with
              | error e => rw [hadd] at h; exact absurd h (by simp)
              | ok st2 =>
                rw [hadd] at h
                dsimp only at h
                have hst2 : ValidQueue st2.queue := by
                  refine add_valid hq1 ?_ hadd
                  simp only [syntheticAcquisition]
                  exact lt_of_le_of_ne hun (Ne.symm h3)
                cases hrec2 : removeQ p st2.queue unsold with
                | error e => rw [hrec2] at h; exact absurd h (by simp)
                | ok v2 =>
                  obtain ⟨additional, remaining, q2⟩ := v2
                  rw [hrec2] at h
                  dsimp only at h
                  have hq2 : ValidQueue q2 := removeQ_valid hst2 hrec2
                  by_cases h5 : remaining ≠ 0
                  · rw [if_pos h5] at h; exact absurd h (by simp)
                  · rw [if_neg h5] at h
                    simp only [Except.ok.injEq, Prod.mk.injEq] at h
                    obtain ⟨ha, hb⟩ := h
                    subst hb
                    exact hq2
            | warning =>
              rw [hmode] at h
              simp only [Except.ok.injEq, Prod.mk.injEq] at h
              obtain ⟨ha, hb⟩ := h
              subst hb
              exact hq1
        · rw [if_neg h3] at h
          simp only [Except.ok.injEq, Prod.mk.injEq] at h
          obtain ⟨ha, hb⟩ := h
          subst hb
          exact hq1

theorem remove_ok_elim {p : Principle} {fiat : String} {st : BalanceQueue}
    {op : Operation} {scs : List SoldCoin} {st1 : BalanceQueue}
    (h : remove p fiat st op = .ok (scs, st1)) :
    ∃ l, removeCore p fiat st op = .ok (l, st1) ∧
      scs = finalTruncate op.change l := by
  simp only [remove] at h
  cases hrec : removeCore p fiat st op with
  | error e => rw [hrec] at h; exact absurd h (by simp)
  | ok v =>
    obtain ⟨l, st2⟩ := v
    rw [hrec] at h
    simp only [Except.ok.injEq, Prod.mk.injEq] at h
    obtain ⟨ha, hb⟩ := h
    subst hb
    exact ⟨l, rfl, ha.symm⟩

theorem removeAll_queue_empty {p : Principle} {st : BalanceQueue}
    {scs : List SoldCoin} {st1 : BalanceQueue}
    (h : removeAll p st = .ok (scs, st1)) : st1.queue = [] := by
  simp only [removeAll] at h
  cases hrec : (match p with
                | .fifo => removeAllFront st.queue
                | .lifo => removeAllFront st.queue.reverse) with
  | error e => rw [hrec] at h; exact absurd h (by simp)
  | ok l =>
    rw [hrec] at h
    simp only [Except.ok.injEq, Prod.mk.injEq] at h
    obtain ⟨ha, hb⟩ := h
    subst hb
    rfl

theorem removeCore_fiat_ok {p : Principle} {fiat : String} {st : BalanceQueue}
    {op : Operation} (hv : ValidQueue st.queue) (hfiat : st.coin = fiat)
    (hcoin : op.coin = st.coin) (hch : 0 ≤ op.change) :
    ∃ scs st1, removeCore p fiat st op = .ok (scs, st1) := by
  obtain ⟨scs, un, q1, hrec⟩ := removeQ_isOk (p := p) hv hch
  have hsum : sumSold scs + un = op.change := removeQ_sumSold hrec
  have hun : 0 ≤ un := removeQ_unsold_nonneg hrec
  simp only [removeCore]
  rw [if_neg (not_ne_iff.mpr hcoin), hrec]
  dsimp only
  rw [if_neg (not_lt.mpr (by linarith))]
  by_cases h2 : un ≠ 0
  · rw [if_pos h2, if_pos hfiat]
    exact ⟨_, _, rfl⟩
  · rw [if_neg h2]
    exact ⟨_, _, rfl⟩

theorem remove_fiat_ok {p : Principle} {fiat : String} {st : BalanceQueue}
    {op : Operation} (hv : ValidQueue st.queue) (hfiat : st.coin = fiat)
    (hcoin : op.coin = st.coin) (hch : 0 ≤ op.change) :
    ∃ scs st1, remove p fiat st op = .ok (scs, st1) := by
  obtain ⟨scs, st1, hcore⟩ := removeCore_fiat_ok (p := p) hv hfiat hcoin hch
  exact ⟨finalTruncate op.change scs, st1, by simp only [remove, hcore]⟩

theorem removeFee_fiat_ok {p : Principle} {fiat : String} {st : BalanceQueue}
    {fee : FeeOp} (hv : ValidQueue st.queue)
    (hcoin : fee.coin = st.coin) (hch : 0 ≤ fee.change) :
    ∃ st1, removeFee p fiat st fee = .ok st1 := by
  obtain ⟨scs, un, q1, hrec⟩ := removeQ_isOk (p := p) hv hch
  simp only [removeFee, removeFeeAmount, hrec]
  rw [if_neg (not_ne_iff.mpr hcoin)]
  by_cases h1 : un ≠ 0 ∧ st.coin ≠ fiat
  · rw [if_pos h1]
    exact ⟨_, rfl⟩
  · rw [if_neg h1]
    exact ⟨_, rfl⟩

theorem sanityCheck_fiat_ok {fiat : String} {st : BalanceQueue}
    (hfiat : st.coin = fiat) : sanityCheck fiat st = .ok () := by
  simp only [sanityCheck]
  by_cases h1 : st.buffer_fee ≠ 0
  · rw [if_pos h1, if_pos hfiat]
  · rw [if_neg h1]

/-! ### Staking selection lemmas -/

theorem foldlMin_mem (l : List StakingContract) (b : StakingContract) :
    l.foldl (fun best x =>
      if x.start_operation.utc_time < best.start_operation.utc_time then x
      else best) b ∈ b :: l := by
  induction l generalizing b with
  | nil => simp
  | cons c rest ih =>
    simp only [List.foldl_cons]
    rcases List.mem_cons.mp
        (ih (b := if c.start_operation.utc_time < b.start_operation.utc_time
          then c else b)) with h | h
    · rw [h]
      split_ifs
      · exact List.mem_cons_of_mem _ (List.mem_cons_self _ _)
      · exact List.mem_cons_self _ _
    · exact List.mem_cons_of_mem _ (List.mem_cons_of_mem _ h)

theorem foldlMin_le (l : List StakingContract) (b : StakingContract) :
    ∀ x ∈ b :: l,
      (l.foldl (fun best x =>
        if x.start_operation.utc_time < best.start_operation.utc_time then x
        else best) b).start_operation.utc_time ≤ x.start_operation.utc_time := by
  induction l generalizing b with
  | nil =>
    intro x hx
    rcases List.mem_singleton.mp hx with rfl
    exact le_refl _
  | cons c rest ih =>
    intro x hx
    have hb1b : (if c.start_operation.utc_time < b.start_operation.utc_time
        then c else b).start_operation.utc_time ≤ b.start_operation.utc_time := by
      split_ifs with h
      · exact le_of_lt h
      · exact le_refl _
    have hb1c : (if c.start_operation.utc_time < b.start_operation.utc_time
        then c else b).start_operation.utc_time ≤ c.start_operation.utc_time := by
      split_ifs with h
      · exact le_refl _
      · exact not_lt.mp h
    simp only [List.foldl_cons]
    rcases List.mem_cons.mp hx with rfl | hx
    · exact le_trans (ih _ _ (List.mem_cons_self _ _)) hb1b
    · rcases List.mem_cons.mp hx with rfl | hx
      · exact le_trans (ih _ _ (List.mem_cons_self _ _)) hb1c
      · exact ih _ x (List.mem_cons_of_mem _ hx)

/-! ### Concrete instances used by the claims -/

/-- An empty BTC balance queue with the given missing-acquisition policy. -/
def bqBTC (h : MissingAcquisitionHandling) : BalanceQueue :=
  { coin := "BTC", missing_acquisition_handling := h, queue := [], buffer_fee := 0 }

/-- Lot A of the spec's §8 FIFO/LIFO test: amount 2 acquired at t = 1. -/
def opA : Operation :=
  { platform := "p", coin := "BTC", change := 2, utc_time := 1, kind := .buy }

/-- Lot B of the spec's §8 FIFO/LIFO test: amount 3 acquired at t = 2. -/
def opB : Operation :=
  { platform := "p", coin := "BTC", change := 3, utc_time := 2, kind := .buy }

/-- The removal of X = 4 units of the spec's §8 FIFO/LIFO test. -/
def opSell4 : Operation :=
  { platform := "p", coin := "BTC", change := 4, utc_time := 3, kind := .sell }

/-- A sale of 5 BTC against an empty queue (spec §8 ZERO_COST test). -/
def opSell5 : Operation :=
  { platform := "binance", coin := "BTC", change := 5, utc_time := 1000, kind := .sell }

/-- The lot of 10 of the spec's §8 staking round-trip test. -/
def lotOp10 : Operation :=
  { platform := "kraken", coin := "ETH", change := 10, utc_time := 50, kind := .buy }

/-- The staking-start operation locking 10 units. -/
def stakeStart10 : Operation :=
  { platform := "kraken", coin := "ETH", change := 10, utc_time := 60, kind := .staking }

/-- The staking-end operation returning the 10 locked units. -/
def stakeEnd10 : Operation :=
  { platform := "kraken", coin := "ETH", change := 10, utc_time := 70, kind := .stakingEnd }

/-- The contract created by `startStakingContract` in the round-trip test. -/
def c8Contract : StakingContract :=
  { contract_id := mkContractId stakeStart10 1
    coin := "ETH"
    platform := "kraken"
    total_amount := 10
    start_operation := stakeStart10
    staked_coins := [⟨lotOp10, 10, "ETH", "kraken", 60, "staking"⟩]
    is_active := true }

/-! ### The claims -/

/-- Claim C1, counterexample: the claim says the SoldCoin classification is
taxable iff `acquisition_time + 1 year > sale_time`, so a lot acquired at T
and sold at exactly T + 1 year is exempt.  But `Taxman._evaluate_sell`
(taxman.py line 485) computes
`is_taxable = sc.op.utc_time + relativedelta(years=1) >= op.utc_time`:
at the concrete boundary input (acquired 2023-03-15 10:30:00, sold exactly
one year later) it classifies the sale as TAXABLE, while the claimed
strict rule (which `calculate_holding_period_taxation` implements) says
exempt. -/
theorem c1_one_year_boundary_counterexample :
    addYears ⟨2023, 3, 15, 10, 30, 0⟩ 1 = ⟨2024, 3, 15, 10, 30, 0⟩ ∧
    isTaxableTaxman ⟨2023, 3, 15, 10, 30, 0⟩ ⟨2024, 3, 15, 10, 30, 0⟩ = true ∧
    calculateHoldingPeriodTaxation ⟨2023, 3, 15, 10, 30, 0⟩
      ⟨2024, 3, 15, 10, 30, 0⟩ = false := by
  refine ⟨?_, ?_, ?_⟩ <;> decide

/-- Claim C1 (amended): `Taxman._evaluate_sell` classifies a SoldCoin as
taxable iff `acquisition_time + 1 year >= sale_time`, so a lot acquired at
T and sold at exactly T + 1 year is TAXABLE there; the strict rule
`acquisition_time + 1 year > sale_time` (exempt at exactly T + 1 year) is
implemented only by `GermanTaxRules.calculate_holding_period_taxation`.
A sale strictly before T + 1 year is taxable under both classifiers, and a
sale strictly after T + 1 year is exempt under both. -/
theorem c1_holding_period_amended (b s : DateTime) :
    isTaxableTaxman b (addYears b 1) = true ∧
    calculateHoldingPeriodTaxation b (addYears b 1) = false ∧
    (s.key < (addYears b 1).key →
      isTaxableTaxman b s = true ∧ calculateHoldingPeriodTaxation b s = true) ∧
    ((addYears b 1).key < s.key →
      isTaxableTaxman b s = false ∧
      calculateHoldingPeriodTaxation b s = false) := by
  refine ⟨?_, ?_, fun h => ⟨?_, ?_⟩, fun h => ⟨?_, ?_⟩⟩ <;>
    simp [isTaxableTaxman, calculateHoldingPeriodTaxation] <;> omega

/-- Witness for C1 (amended) at a concrete acquisition and an earlier
sale. -/
theorem c1_holding_period_amended_witness :
    isTaxableTaxman ⟨2020, 1, 1, 0, 0, 0⟩ (addYears ⟨2020, 1, 1, 0, 0, 0⟩ 1) = true ∧
    (⟨2020, 6, 1, 0, 0, 0⟩ : DateTime).key < (addYears ⟨2020, 1, 1, 0, 0, 0⟩ 1).key ∧
    isTaxableTaxman ⟨2020, 1, 1, 0, 0, 0⟩ ⟨2020, 6, 1, 0, 0, 0⟩ = true ∧
    calculateHoldingPeriodTaxation ⟨2020, 1, 1, 0, 0, 0⟩ ⟨2020, 6, 1, 0, 0, 0⟩ = true := by
  obtain ⟨h1, h2, h3, h4⟩ :=
    c1_holding_period_amended ⟨2020, 1, 1, 0, 0, 0⟩ ⟨2020, 6, 1, 0, 0, 0⟩
  have hlt : (⟨2020, 6, 1, 0, 0, 0⟩ : DateTime).key <
      (addYears ⟨2020, 1, 1, 0, 0, 0⟩ 1).key := by
    decide
  exact ⟨h1, hlt, (h3 hlt).1, (h3 hlt).2⟩

set_option maxRecDepth 2000 in
/-- Claim C2: after adding lot A (amount 2, t = 1) then lot B (amount 3,
t = 2) to an empty queue, removing 4 units from a FIFO queue returns
SoldCoin fragments [(A, 2), (B, 2)] in that order and leaves B resident
with `not_sold = 1`, while the same removal from a LIFO queue returns
[(B, 3), (A, 1)] and leaves A resident with `not_sold = 1`. -/
theorem c2_fifo_lifo_order :
    (do
      let s1 ← add .fifo "EUR" (bqBTC .error) opA
      let s2 ← add .fifo "EUR" s1 opB
      remove .fifo "EUR" s2 opSell4) =
      .ok ([⟨opA, 2⟩, ⟨opB, 2⟩], { bqBTC .error with queue := [⟨opB, 2⟩] }) ∧
    BalancedOperation.notSold ⟨opB, 2⟩ = 1 ∧
    (do
      let s1 ← add .lifo "EUR" (bqBTC .error) opA
      let s2 ← add .lifo "EUR" s1 opB
      remove .lifo "EUR" s2 opSell4) =
      .ok ([⟨opB, 3⟩, ⟨opA, 1⟩], { bqBTC .error with queue := [⟨opA, 1⟩] }) ∧
    BalancedOperation.notSold ⟨opA, 1⟩ = 1 := by
  refine ⟨?_, ?_, ?_, ?_⟩ <;> with_unfolding_all decide

set_option maxRecDepth 2000 in
/-- Claim C3: removing 5 units from an empty non-fiat queue configured
with ZERO_COST handling returns exactly one SoldCoin of amount 5 whose
originating lot is a synthetic acquisition (a Buy carrying the zero-cost
remark) on the same platform with change equal to the shortfall and
utc_time exactly one second before the removal operation's utc_time;
afterwards the queue is empty again. -/
theorem c3_zero_cost_synthesis :
    remove .fifo "EUR" (bqBTC .zero_cost) opSell5 =
      .ok ([⟨syntheticAcquisition opSell5 5, 5⟩], bqBTC .zero_cost) ∧
    syntheticAcquisition opSell5 5 =
      { platform := "binance", coin := "BTC", change := 5,
        utc_time := opSell5.utc_time - 1, kind := .buy, fees := none,
        remarks := [syntheticRemark] } := by
  constructor
  · have hchange : opSell5.change = 5 := rfl
    have hcoin : opSell5.coin = "BTC" := rfl
    have hBE : (("BTC" : String) = "EUR") = False := by simp
    have hs1 : removeQ Principle.fifo ([] : List BalancedOperation) (5 : ℚ) =
        .ok ([], 5, []) := by with_unfolding_all decide
    have hns : BalancedOperation.notSold ⟨syntheticAcquisition opSell5 5, 0⟩ = 5 := by
      norm_num [BalancedOperation.notSold, syntheticAcquisition]
    have hadd : add Principle.fifo "EUR"
        ({ coin := "BTC", missing_acquisition_handling := .zero_cost, queue := [],
           buffer_fee := 0 } : BalanceQueue) (syntheticAcquisition opSell5 5) =
        .ok { coin := "BTC", missing_acquisition_handling := .zero_cost,
              queue := [⟨syntheticAcquisition opSell5 5, 0⟩], buffer_fee := 0 } := by
      rw [add, if_neg (by simp [syntheticAcquisition]),
        if_neg (by simp [syntheticAcquisition, opSell5]), put]
      norm_num
    have hs2 : removeQ Principle.fifo
        [⟨syntheticAcquisition opSell5 5, (0 : ℚ)⟩] (5 : ℚ) =
        .ok ([⟨syntheticAcquisition opSell5 5, 5⟩], 0, []) := by
      simp only [removeQ, removeLoop, removeFront, hns]
      norm_num
    norm_num [remove, removeCore, bqBTC, sumSold, finalTruncate, hs1, hadd, hs2,
      hchange, hcoin, hBE]
  · rfl

/-- Claim C6: `BalanceConfig` carries
`missing_acquisition_handling`, but `BalanceManager.get_balance`
constructs new queues with `self._BalanceType(coin)` — dropping the
configured value, so a manager configured with ZERO_COST hands out a
queue whose policy is the `BalanceQueue.__init__` default ERROR. -/
theorem c6_handling_not_propagated :
    (getBalance
        { principle := .fifo, depot_mode := .single, fiat_currency := "EUR",
          missing_acquisition_handling := .zero_cost }
        [] "binance" "BTC").1.missing_acquisition_handling =
      MissingAcquisitionHandling.error ∧
    MissingAcquisitionHandling.error ≠ MissingAcquisitionHandling.zero_cost := by
  constructor <;> with_unfolding_all decide

set_option maxRecDepth 3000 in
/-- Claim C8: starting a staking contract that locks 10 units allocated
from a lot of 10, followed by ending that contract, returns StakedCoin
entries totaling exactly 10 whose `operation` references are the original
acquisition operations unchanged (same acquisition timestamp), so
holding-period eligibility after the round-trip is identical to before
staking. -/
theorem c8_staking_round_trip :
    startStakingContract 0 [] stakeStart10 [⟨lotOp10, 10⟩] =
      .ok (mkContractId stakeStart10 1, 1, [c8Contract]) ∧
    endStakingContract [c8Contract] stakeEnd10 none =
      .ok ([⟨lotOp10, 10, "ETH", "kraken", 60, "staking"⟩], []) ∧
    (([⟨lotOp10, 10, "ETH", "kraken", 60, "staking"⟩] : List StakedCoin).map
      StakedCoin.amount).sum = 10 ∧
    (⟨lotOp10, 10, "ETH", "kraken", 60, "staking"⟩ : StakedCoin).operation = lotOp10 ∧
    (⟨lotOp10, 10, "ETH", "kraken", 60, "staking"⟩ : StakedCoin).operation.utc_time =
      lotOp10.utc_time := by
  refine ⟨?_, ?_, ?_, ?_, ?_⟩ <;> with_unfolding_all decide

/-- Claim C4: every lot resident in a `BalanceQueue` satisfies
`0 < not_sold ≤ op.change` (equivalently `0 ≤ sold < op.change`, the
`ValidQueue` predicate), and every operation on the queue (`add`,
`remove`, `remove_fee`, `remove_all`) preserves this; a lot leaves the
queue exactly when it is fully consumed, expressed by conservation: the
amounts consumed by `_remove` plus the `not_sold` total of the remaining
queue equal the `not_sold` total of the original queue. -/
theorem c4_queue_invariant (p : Principle) (fiat : String) (st : BalanceQueue)
    (op : Operation) (fee : FeeOp) (hv : ValidQueue st.queue) :
    (∀ st1, 0 < op.change → add p fiat st op = .ok st1 → ValidQueue st1.queue) ∧
    (∀ scs st1, remove p fiat st op = .ok (scs, st1) → ValidQueue st1.queue) ∧
    (∀ st1, removeFee p fiat st fee = .ok st1 → ValidQueue st1.queue) ∧
    (∀ scs st1, removeAll p st = .ok (scs, st1) → ValidQueue st1.queue) ∧
    (∀ scs un q1, removeQ p st.queue op.change = .ok (scs, un, q1) →
      sumSold scs + sumNotSold q1 = sumNotSold st.queue) := by
  refine ⟨fun st1 hop h => add_valid hv hop h,
    fun scs st1 h => ?_,
    fun st1 h => removeFee_valid hv h,
    fun scs st1 h => ?_,
    fun scs un q1 h => removeQ_conserve h⟩
  · obtain ⟨l, hcore, _⟩ := remove_ok_elim h
    exact removeCore_valid hv hcore
  · rw [removeAll_queue_empty h]
    intro x hx
    exact absurd hx (List.not_mem_nil x)

/-- The fee operation used in the C4 witness. -/
def feeBTC : FeeOp := { platform := "p", coin := "BTC", change := 1, utc_time := 5 }

set_option maxRecDepth 2000 in
/-- Witness for C4 at a concrete two-lot queue and removal. -/
theorem c4_queue_invariant_witness :
    ValidQueue [⟨opA, 0⟩, ⟨opB, 0⟩] ∧
    remove .fifo "EUR"
        { coin := "BTC", missing_acquisition_handling := .error,
          queue := [⟨opA, 0⟩, ⟨opB, 0⟩], buffer_fee := 0 } opSell4 =
      .ok ([⟨opA, 2⟩, ⟨opB, 2⟩],
        { coin := "BTC", missing_acquisition_handling := .error,
          queue := [⟨opB, 2⟩], buffer_fee := 0 }) ∧
    ValidQueue [⟨opB, 2⟩] := by
  have hv : ValidQueue [⟨opA, 0⟩, ⟨opB, 0⟩] := by with_unfolding_all decide
  have hok : remove .fifo "EUR"
      { coin := "BTC", missing_acquisition_handling := .error,
        queue := [⟨opA, 0⟩, ⟨opB, 0⟩], buffer_fee := 0 } opSell4 =
      .ok ([⟨opA, 2⟩, ⟨opB, 2⟩],
        { coin := "BTC", missing_acquisition_handling := .error,
          queue := [⟨opB, 2⟩], buffer_fee := 0 }) := by
    with_unfolding_all decide
  exact ⟨hv, hok,
    (c4_queue_invariant .fifo "EUR" _ opSell4 feeBTC hv).2.1 _ _ hok⟩

/-- Claim C5: for every call to `BalanceQueue.remove(op)` that returns
normally, the sum of the returned `SoldCoin.sold` amounts never exceeds
`op.change` (the final validation block truncates any overshoot). -/
theorem c5_remove_bounded (p : Principle) (fiat : String) (st : BalanceQueue)
    (op : Operation) (scs : List SoldCoin) (st1 : BalanceQueue)
    (h : remove p fiat st op = .ok (scs, st1)) :
    sumSold scs ≤ op.change := by
  obtain ⟨l, hcore, hscs⟩ := remove_ok_elim h
  obtain ⟨hch, _⟩ := removeCore_ok_elim hcore
  rw [hscs]
  exact finalTruncate_sum_le l hch

set_option maxRecDepth 2000 in
/-- Witness for C5 at a concrete WARNING-mode partial sale. -/
theorem c5_remove_bounded_witness :
    sumSold [⟨opA, (2 : ℚ)⟩] ≤ opSell4.change := by
  have hok : remove .fifo "EUR"
      { coin := "BTC", missing_acquisition_handling := .warning,
        queue := [⟨opA, 0⟩], buffer_fee := 0 } opSell4 =
      .ok ([⟨opA, 2⟩],
        { coin := "BTC", missing_acquisition_handling := .warning,
          queue := [], buffer_fee := 0 }) := by
    with_unfolding_all decide
  exact c5_remove_bounded .fifo "EUR" _ opSell4 _ _ hok

/-- Claim C7: for a queue whose coin equals the configured fiat currency,
an inventory shortfall never raises a fatal error regardless of the
configured missing_acquisition_handling mode — `remove`, `remove_fee` and
`sanity_check` all return normally (given the queue invariant, matching
coins and non-negative amounts, which the callers guarantee). -/
theorem c7_fiat_never_fatal (p : Principle) (fiat : String) (st : BalanceQueue)
    (op : Operation) (fee : FeeOp)
    (hv : ValidQueue st.queue) (hfiat : st.coin = fiat)
    (hopcoin : op.coin = st.coin) (hopch : 0 ≤ op.change)
    (hfeecoin : fee.coin = st.coin) (hfeech : 0 ≤ fee.change) :
    (remove p fiat st op).isOk = true ∧
    (removeFee p fiat st fee).isOk = true ∧
    sanityCheck fiat st = .ok () := by
  refine ⟨?_, ?_, sanityCheck_fiat_ok hfiat⟩
  · obtain ⟨scs, st1, h⟩ := remove_fiat_ok hv hfiat hopcoin hopch
    rw [h]
    rfl
  · obtain ⟨st1, h⟩ := removeFee_fiat_ok hv hfeecoin hfeech
    rw [h]
    rfl

/-- The fiat sell operation of the C7 witness: removing 5 EUR from an
empty EUR queue in ERROR mode. -/
def opSellEUR : Operation :=
  { platform := "binance", coin := "EUR", change := 5, utc_time := 0, kind := .sell }

/-- The fiat fee of the C7 witness. -/
def feeEUR : FeeOp := { platform := "binance", coin := "EUR", change := 1, utc_time := 0 }

set_option maxRecDepth 2000 in
/-- Witness for C7: a shortfall on the fiat queue in ERROR mode still
returns normally. -/
theorem c7_fiat_never_fatal_witness :
    (remove .fifo "EUR"
      { coin := "EUR", missing_acquisition_handling := .error,
        queue := [], buffer_fee := 0 } opSellEUR).isOk = true := by
  have hv : ValidQueue ([] : List BalancedOperation) :=
    fun x hx => absurd hx (List.not_mem_nil x)
  exact (c7_fiat_never_fatal .fifo "EUR"
    { coin := "EUR", missing_acquisition_handling := .error,
      queue := [], buffer_fee := 0 } opSellEUR feeEUR hv rfl rfl
    (by norm_num [opSellEUR]) rfl (by norm_num [feeEUR])).1

/-- Claim C9: `end_staking_contract` called without a contract id selects
the oldest active contract for the bucket by start time (Python `min`,
first minimum on ties), and it fails — leaving the bucket untouched, as
the exception is raised before any mutation — exactly when the end
operation's amount differs from that contract's total locked amount by
more than the 1e-8 decimal tolerance; on success it returns that
contract's staked coins and removes the contract from the bucket. -/
theorem c9_end_staking_selection (contracts : List StakingContract)
    (end_op : Operation) (hne : contracts ≠ [])
    (hkind : end_op.kind = .coinLendEnd ∨ end_op.kind = .stakingEnd) :
    ∃ c, argminStart contracts = some c ∧ c ∈ contracts ∧
      (∀ x ∈ contracts, c.start_operation.utc_time ≤ x.start_operation.utc_time) ∧
      ((endStakingContract contracts end_op none).isOk = true ↔
        |(|end_op.change| - totalStaked c)| ≤ stakingTol) ∧
      (∀ coins rest, endStakingContract contracts end_op none = .ok (coins, rest) →
        coins = c.staked_coins ∧ rest = contracts.erase c) := by
  obtain ⟨c0, l, rfl⟩ : ∃ c0 l, contracts = c0 :: l := by
    cases contracts with
    | nil => exact absurd rfl hne
    | cons c0 l => exact ⟨c0, l, rfl⟩
  have hstep : endStakingContract (c0 :: l) end_op none =
      (if stakingTol <
          |(|end_op.change| -
            totalStaked (l.foldl (fun best x =>
              if x.start_operation.utc_time < best.start_operation.utc_time then x
              else best) c0))| then
        .error .valueError
      else
        .ok ((l.foldl (fun best x =>
            if x.start_operation.utc_time < best.start_operation.utc_time then x
            else best) c0).staked_coins,
          (c0 :: l).erase (l.foldl (fun best x =>
            if x.start_operation.utc_time < best.start_operation.utc_time then x
            else best) c0))) := by
    simp only [endStakingContract, selectContract, argminStart]
    rw [if_neg (not_not_intro hkind), if_neg (List.cons_ne_nil c0 l)]
  refine ⟨_, rfl, foldlMin_mem l c0, foldlMin_le l c0, ?_, ?_⟩
  · rw [hstep]
    by_cases htol : stakingTol <
        |(|end_op.change| -
          totalStaked (l.foldl (fun best x =>
            if x.start_operation.utc_time < best.start_operation.utc_time then x
            else best) c0))|
    · rw [if_pos htol]
      exact iff_of_false (by simp [Except.isOk, Except.toBool]) (not_le.mpr htol)
    · rw [if_neg htol]
      exact iff_of_true rfl (not_lt.mp htol)
  · intro coins rest h
    rw [hstep] at h
    by_cases htol : stakingTol <
        |(|end_op.change| -
          totalStaked (l.foldl (fun best x =>
            if x.start_operation.utc_time < best.start_operation.utc_time then x
            else best) c0))|
    · rw [if_pos htol] at h
      exact absurd h (by simp)
    · rw [if_neg htol] at h
      simp only [Except.ok.injEq, Prod.mk.injEq] at h
      obtain ⟨h1, h2⟩ := h
      exact ⟨h1.symm, h2.symm⟩

/-- The lot backing the C9 witness contract. -/
def lotOpC9 : Operation :=
  { platform := "p", coin := "BTC", change := 7, utc_time := 10, kind := .buy }

/-- The start operation of the C9 witness contract. -/
def startOpC9 : Operation :=
  { platform := "p", coin := "BTC", change := 7, utc_time := 40, kind := .staking }

/-- The active contract of the C9 witness. -/
def contractC9 : StakingContract :=
  { contract_id := "cid1", coin := "BTC", platform := "p", total_amount := 7,
    start_operation := startOpC9,
    staked_coins := [⟨lotOpC9, 7, "BTC", "p", 40, "staking"⟩],
    is_active := true }

/-- The end operation of the C9 witness. -/
def endOpC9 : Operation :=
  { platform := "p", coin := "BTC", change := 7, utc_time := 100, kind := .stakingEnd }

set_option maxRecDepth 2000 in
/-- Witness for C9: a matching end amount on a singleton bucket
succeeds. -/
theorem c9_end_staking_selection_witness :
    (endStakingContract [contractC9] endOpC9 none).isOk = true := by
  obtain ⟨c, hsel, hmem, hold, hiff, hok⟩ :=
    c9_end_staking_selection [contractC9] endOpC9 (by simp) (Or.inr rfl)
  have hc : c = contractC9 := by
    have hrfl : argminStart [contractC9] = some contractC9 := rfl
    rw [hrfl] at hsel
    exact (Option.some.inj hsel).symm
  subst hc
  apply hiff.mpr
  have : |(|endOpC9.change| - totalStaked contractC9)| = 0 := by
    with_unfolding_all decide
  rw [this]
  with_unfolding_all decide

/-- Claim C10: in `Taxman._get_fee_param_dict`, the `len(op.fees) >= 1`
branch shadows the `len(op.fees) >= 2` branch, so only `op.fees[0]` is
ever evaluated: the second-fee fields of the returned dictionary are
always zero/empty even when two or more fees are present, and the
`NotImplementedError` for more than two fee coins is unreachable (the
function never raises). -/
theorem c10_fee_shadowing (oracle : FeeOp → ℚ → ℚ) (fees : Option (List FeeOp))
    (percent : ℚ) :
    ∃ r, getFeeParamDict oracle fees percent = .ok r ∧
      r.second_fee_amount = 0 ∧ r.second_fee_coin = "" ∧
      r.second_fee_in_fiat = 0 ∧
      (∀ f rest, fees = some (f :: rest) →
        (r.first_fee_amount, r.first_fee_coin, r.first_fee_in_fiat) =
          evaluateFee oracle f percent) := by
  match fees with
  | none =>
    refine ⟨zeroFeeParams, rfl, rfl, rfl, rfl, ?_⟩
    intro f rest h
    exact absurd h (by simp)
  | some [] =>
    refine ⟨zeroFeeParams, rfl, rfl, rfl, rfl, ?_⟩
    intro f rest h
    simp at h
  | some (f0 :: rest0) =>
    refine ⟨{ zeroFeeParams with
        first_fee_amount := (evaluateFee oracle f0 percent).1
        first_fee_coin := (evaluateFee oracle f0 percent).2.1
        first_fee_in_fiat := (evaluateFee oracle f0 percent).2.2 },
      ?_, rfl, rfl, rfl, ?_⟩
    · simp only [getFeeParamDict]
      rw [if_neg (by simp), if_pos (by simp)]
      rfl
    · intro f rest h
      simp only [Option.some.injEq, List.cons.injEq] at h
      obtain ⟨h1, h2⟩ := h
      subst h1
      rfl

/-- The first fee of the C10 witness. -/
def fee1 : FeeOp := { platform := "p", coin := "BNB", change := 3, utc_time := 0 }

/-- The second fee of the C10 witness. -/
def fee2 : FeeOp := { platform := "p", coin := "BTC", change := 4, utc_time := 0 }

/-- Witness for C10 with two attached fees: only the first is evaluated
and the second-fee fields stay zero/empty. -/
theorem c10_fee_shadowing_witness :
    ∃ r, getFeeParamDict (fun _ _ => (0 : ℚ)) (some [fee1, fee2]) 1 = .ok r ∧
      r.second_fee_amount = 0 ∧ r.second_fee_coin = "" ∧
      r.second_fee_in_fiat = 0 ∧
      (r.first_fee_amount, r.first_fee_coin, r.first_fee_in_fiat) =
        evaluateFee (fun _ _ => 0) fee1 1 := by
  obtain ⟨r, h1, h2, h3, h4, h5⟩ :=
    c10_fee_shadowing (fun _ _ => (0 : ℚ)) (some [fee1, fee2]) 1
  exact ⟨r, h1, h2, h3, h4, h5 fee1 [fee2] rfl⟩

end CoinTaxman
